import Mathlib

/-!
Verification of the `sigma` uncertainty-propagation library.

The C++ library represents an uncertain value as a mean, a standard
deviation, and a dependency map from independent variables (held by
`std::shared_ptr`, ordered by pointer identity) to partial-derivative
coefficients.  We embed the library shallowly:

* scalars (`double`) become `ℚ` — all arithmetic the library performs on
  means and coefficients is exact field arithmetic, and `ℚ` keeps every
  definition computable;
* an `IndependentVariable` pointer becomes an `IndVar`: a natural-number
  identity `uid` (modelling the pointer value, which is what `std::map`
  orders and compares) together with the variable's standard deviation
  `sd`;
* the `std::map` dependency map becomes an association list strictly
  sorted by `uid`;
* the stored field `m_std_` always arises as `sqrt` of a sum of squares,
  so we store its square `m_std_sq_` (an exact rational) and express the
  standard deviation itself as `Real.sqrt m_std_sq_` in theorem
  statements; this keeps the state fully computable.
-/

namespace Sigma2

/-- Model of a `std::shared_ptr<IndependentVariable<double>>`: `uid` is the
pointer identity (what the `std::map` key ordering and `shared_ptr`
equality see), `sd` the independent variable's standard deviation. -/
structure IndVar where
  uid : Nat
  sd  : ℚ
deriving DecidableEq, Repr

/-- Model of `Uncertain::deps_map_t = std::map<ind_var_ptr, value_t>`:
an association list of (independent variable, partial derivative),
kept strictly sorted by `uid`. -/
abbrev DepsMap := List (IndVar × ℚ)

/-- Well-formedness of a dependency map: entries strictly sorted by
pointer identity, as `std::map` iteration order guarantees. -/
def DepsWF (m : DepsMap) : Prop :=
  List.Pairwise (fun p q : IndVar × ℚ => p.1.uid < q.1.uid) m

instance (m : DepsMap) : Decidable (DepsWF m) := by
  unfold DepsWF; infer_instance

/-- `Setter::update_dependency(var, deriv)` (body not in the repository;
documented in `uncertain.hpp`): if `var` is already a key, add `deriv`
to its coefficient (keeping the existing key object, as `std::map`
does), otherwise insert `(var, deriv)` at its ordered position. -/
def updateDependency : DepsMap → IndVar → ℚ → DepsMap
  | [], v, d => [(v, d)]
  | (w, c) :: rest, v, d =>
    if v.uid < w.uid then (v, d) :: (w, c) :: rest
    else if v.uid = w.uid then (w, c + d) :: rest
    else (w, c) :: updateDependency rest v d

/-- `Setter::update_derivatives(deps, dydx)` minus the final
`calculate_std` call (which each operation model performs explicitly):
for every entry `(var, deriv)` of `deps`, `update_dependency(var,
deriv * dydx)` on the target, in map iteration order. -/
def updateDependencies (m : DepsMap) (deps : DepsMap) (dydx : ℚ) : DepsMap :=
  deps.foldl (fun acc p => updateDependency acc p.1 (p.2 * dydx)) m

/-- `Setter::update_derivatives(dydx)` / the in-place loops of
`Uncertain::operator*(NumericType)` and `Uncertain::pow`: scale every
coefficient by `dydx`, keys untouched. -/
def scaleDeps (m : DepsMap) (dydx : ℚ) : DepsMap :=
  m.map (fun p => (p.1, p.2 * dydx))

/-- Modelled from the spec: the body of `Uncertain::calculate_std` is not
in the repository; per §4.3 the standard deviation is recomputed as
`sqrt(Σ coeff_i² * independent_std_i²)`.  `calcVar` is the radicand
(the square of the stored `m_std_`): `Σ (deriv * dep->std())²`. -/
def calcVar (m : DepsMap) : ℚ :=
  (m.map (fun p => (p.2 * p.1.sd) ^ 2)).sum

/-- Model of `sigma::Uncertain<double>`: `m_mean_` and `m_deps_` as in the
source; `m_std_sq_` is the square of the stored `m_std_` field. -/
structure Uncertain where
  m_mean_   : ℚ
  m_std_sq_ : ℚ
  m_deps_   : DepsMap
deriving DecidableEq, Repr

namespace Uncertain

/-- Accessor `Uncertain::mean()`. -/
def mean (u : Uncertain) : ℚ := u.m_mean_

/-- Accessor `Uncertain::deps()`. -/
def deps (u : Uncertain) : DepsMap := u.m_deps_

/-- The square of the stored standard deviation `Uncertain::std()`;
the standard deviation itself is `Real.sqrt u.stdSq`. -/
def stdSq (u : Uncertain) : ℚ := u.m_std_sq_

/-- Modelled from the spec: the body of `Uncertain(value_t mean, value_t
std)` is not in the repository; per §3/§6 it allocates exactly one fresh
synthetic independent variable with standard deviation `std` and records
unit sensitivity to it, the standard deviation being derived from the
map (§4.3).  The fresh pointer is modelled by the explicit identity
`uid`. -/
def mk' (uid : Nat) (mean std : ℚ) : Uncertain :=
  let deps : DepsMap := [(⟨uid, std⟩, 1)]
  { m_mean_ := mean, m_std_sq_ := calcVar deps, m_deps_ := deps }

/-- `operator-(const UncertainType&)` (unary negation): copy, negate the
mean, scale all derivatives by `-1.0`, recompute the standard
deviation. -/
def neg (u : Uncertain) : Uncertain :=
  let deps := scaleDeps u.m_deps_ (-1)
  { m_mean_ := -u.m_mean_, m_std_sq_ := calcVar deps, m_deps_ := deps }

/-- `operator+` via `operator+=`: mean is the sum of means; the
right-hand map is merged into (a copy of) the left-hand map with scale
`1.0`; standard deviation recomputed. -/
def add (lhs rhs : Uncertain) : Uncertain :=
  let deps := updateDependencies lhs.m_deps_ rhs.m_deps_ 1
  { m_mean_ := lhs.m_mean_ + rhs.m_mean_
    m_std_sq_ := calcVar deps
    m_deps_ := deps }

/-- `operator-` via `operator-=`: mean is the difference of means; the
right-hand map is merged with scale `-1.0`; standard deviation
recomputed. -/
def sub (lhs rhs : Uncertain) : Uncertain :=
  let deps := updateDependencies lhs.m_deps_ rhs.m_deps_ (-1)
  { m_mean_ := lhs.m_mean_ - rhs.m_mean_
    m_std_sq_ := calcVar deps
    m_deps_ := deps }

/-- `operator*` via `operator*=`: with `dcda = mean(rhs)` and `dcdb =
mean(lhs)` captured first, the mean becomes the product, the left map is
scaled in place by `dcda`, the right map merged with scale `dcdb`, and
the standard deviation recomputed. -/
def mul (lhs rhs : Uncertain) : Uncertain :=
  let dcda := rhs.m_mean_
  let dcdb := lhs.m_mean_
  let deps := updateDependencies (scaleDeps lhs.m_deps_ dcda) rhs.m_deps_ dcdb
  { m_mean_ := lhs.m_mean_ * rhs.m_mean_
    m_std_sq_ := calcVar deps
    m_deps_ := deps }

/-- `operator/` via `operator/=`: with `dcda = 1/mean(rhs)` and `dcdb =
-mean(lhs)/mean(rhs)²`, the mean becomes the quotient, the left map is
scaled by `dcda`, the right map merged with scale `dcdb`, and the
standard deviation recomputed. -/
def div (lhs rhs : Uncertain) : Uncertain :=
  let dcda := 1 / rhs.m_mean_
  let dcdb := -lhs.m_mean_ / rhs.m_mean_ ^ 2
  let deps := updateDependencies (scaleDeps lhs.m_deps_ dcda) rhs.m_deps_ dcdb
  { m_mean_ := lhs.m_mean_ / rhs.m_mean_
    m_std_sq_ := calcVar deps
    m_deps_ := deps }

/-- `Uncertain::operator*(NumericType v)` (uncertain_hpp lines 205-213):
copy, set the mean to `v * mean()`, scale every coefficient by `v`,
`calculate_std()`. -/
def smul (u : Uncertain) (v : ℚ) : Uncertain :=
  let deps := scaleDeps u.m_deps_ v
  { m_mean_ := v * u.m_mean_, m_std_sq_ := calcVar deps, m_deps_ := deps }

/-- Free `operator*(ValueType v, const Uncertain& u)` (uncertain_hpp
lines 237-240): simply `u * v`. -/
def smulLeft (v : ℚ) (u : Uncertain) : Uncertain := u.smul v

/-- `operator/(const UncertainType&, double)` via `operator/=`: divide
the mean by `rhs`, scale the map by `1/rhs`, recompute. -/
def divScalar (u : Uncertain) (v : ℚ) : Uncertain :=
  let deps := scaleDeps u.m_deps_ (1 / v)
  { m_mean_ := u.m_mean_ / v, m_std_sq_ := calcVar deps, m_deps_ := deps }

/-- `operator/(double lhs, const UncertainType& rhs)`: copy `rhs`, set
the mean to `lhs / mean(rhs)`, scale the map by `-lhs/mean(rhs)²`,
recompute. -/
def scalarDiv (v : ℚ) (u : Uncertain) : Uncertain :=
  let deps := scaleDeps u.m_deps_ (-v / u.m_mean_ ^ 2)
  { m_mean_ := v / u.m_mean_, m_std_sq_ := calcVar deps, m_deps_ := deps }

/-- `Uncertain::pow(NumericType exp)` (uncertain_hpp lines 215-224):
copy, set the mean to `mean()^exp`, scale every coefficient by
`dydx = exp * mean()^(exp-1)`, `calculate_std()`.  The exponent is
modelled as an integer so that `mean()^exp` stays rational. -/
def pow (u : Uncertain) (exp : ℤ) : Uncertain :=
  let dydx := (exp : ℚ) * u.m_mean_ ^ (exp - 1)
  let deps := scaleDeps u.m_deps_ dydx
  { m_mean_ := u.m_mean_ ^ exp, m_std_sq_ := calcVar deps, m_deps_ := deps }

end Uncertain

/-- `std::map::operator==` on two dependency maps: equal sizes and
pairwise-equal entries, where keys (`shared_ptr`s) compare by pointer
identity (`uid`) and values exactly. -/
def depsBeq : DepsMap → DepsMap → Bool
  | [], [] => true
  | p :: ps, q :: qs =>
    if p.1.uid = q.1.uid ∧ p.2 = q.2 then depsBeq ps qs else false
  | _, _ => false

/-- Free `operator==(const Uncertain&, const Uncertain&)` (uncertain_hpp
lines 270-276): compare mean, then stored standard deviation (here via
its square, which determines it), then the dependency maps; exact
comparisons throughout. -/
def eqU (lhs rhs : Uncertain) : Bool :=
  if lhs.m_mean_ = rhs.m_mean_ then
    if lhs.m_std_sq_ = rhs.m_std_sq_ then depsBeq lhs.m_deps_ rhs.m_deps_
    else false
  else false

/-- Free `operator!=`: the negation of `operator==`. -/
def neU (lhs rhs : Uncertain) : Bool := ! eqU lhs rhs

/-- First-match coefficient lookup by pointer identity; `0` when the
identity is absent (used only in specifications, not by the code). -/
def coeffOf : DepsMap → Nat → ℚ
  | [], _ => 0
  | (v, c) :: rest, i => if v.uid = i then c else coeffOf rest i

/-- The uncertain values constructible through the public API: direct
construction from (mean, std), and every arithmetic operator (the
compound assignments produce the same values as their binary forms). -/
inductive Reachable : Uncertain → Prop
  | mk' (uid : Nat) (m s : ℚ) : Reachable (Uncertain.mk' uid m s)
  | neg {u : Uncertain} : Reachable u → Reachable u.neg
  | add {u v : Uncertain} : Reachable u → Reachable v → Reachable (u.add v)
  | sub {u v : Uncertain} : Reachable u → Reachable v → Reachable (u.sub v)
  | mul {u v : Uncertain} : Reachable u → Reachable v → Reachable (u.mul v)
  | div {u v : Uncertain} : Reachable u → Reachable v → Reachable (u.div v)
  | smul {u : Uncertain} (k : ℚ) : Reachable u → Reachable (u.smul k)
  | smulLeft {u : Uncertain} (k : ℚ) : Reachable u → Reachable (Uncertain.smulLeft k u)
  | divScalar {u : Uncertain} (k : ℚ) : Reachable u → Reachable (u.divScalar k)
  | scalarDiv {u : Uncertain} (k : ℚ) : Reachable u → Reachable (Uncertain.scalarDiv k u)
  | pow {u : Uncertain} (p : ℤ) : Reachable u → Reachable (u.pow p)

end Sigma2

-- -- Lemmas about the dependency-map primitives ------------------------------

namespace Sigma2

theorem coeffOf_eq_zero {m : DepsMap} {i : Nat}
    (h : ∀ p ∈ m, p.1.uid ≠ i) : coeffOf m i = 0 := by
  induction m with
  | nil => rfl
  | cons p rest ih =>
      have hp := h p (List.mem_cons_self _ _)
      simp only [coeffOf, if_neg hp]
      exact ih fun q hq => h q (List.mem_cons_of_mem _ hq)

theorem updateDependency_lb {m : DepsMap} {v : IndVar} {d : ℚ} {a : Nat}
    (hm : ∀ q ∈ m, a < q.1.uid) (hv : a < v.uid) :
    ∀ q ∈ updateDependency m v d, a < q.1.uid := by
  induction m with
  | nil =>
      intro q hq
      simp only [updateDependency, List.mem_singleton] at hq
      simpa [hq] using hv
  | cons p rest ih =>
      obtain ⟨w, c⟩ := p
      intro q hq
      simp only [updateDependency] at hq
      split_ifs at hq with h1 h2
      · rcases List.mem_cons.mp hq with h | h
        · simpa [h] using hv
        · exact hm q h
      · rcases List.mem_cons.mp hq with h | h
        · have := hm (w, c) (List.mem_cons_self _ _)
          simpa [h] using this
        · exact hm q (List.mem_cons_of_mem _ h)
      · rcases List.mem_cons.mp hq with h | h
        · have := hm (w, c) (List.mem_cons_self _ _)
          simpa [h] using this
        · exact ih (fun r hr => hm r (List.mem_cons_of_mem _ hr)) q h

theorem updateDependency_sorted {m : DepsMap} (hm : DepsWF m)
    (v : IndVar) (d : ℚ) : DepsWF (updateDependency m v d) := by
  induction m with
  | nil => simp [updateDependency, DepsWF]
  | cons p rest ih =>
      obtain ⟨w, c⟩ := p
      rw [DepsWF, List.pairwise_cons] at hm
      obtain ⟨hw, hrest⟩ := hm
      simp only [updateDependency]
      split_ifs with h1 h2
      · rw [DepsWF, List.pairwise_cons]
        refine ⟨?_, ?_⟩
        · intro q hq
          rcases List.mem_cons.mp hq with h | h
          · simpa [h] using h1
          · exact lt_trans h1 (hw q h)
        · rw [List.pairwise_cons]
          exact ⟨hw, hrest⟩
      · rw [DepsWF, List.pairwise_cons]
        exact ⟨hw, hrest⟩
      · rw [DepsWF, List.pairwise_cons]
        refine ⟨?_, ih hrest⟩
        have hlt : w.uid < v.uid := by omega
        exact updateDependency_lb hw hlt

theorem coeffOf_updateDependency {m : DepsMap} (hm : DepsWF m)
    (v : IndVar) (d : ℚ) (i : Nat) :
    coeffOf (updateDependency m v d) i
      = coeffOf m i + (if v.uid = i then d else 0) := by
  induction m with
  | nil =>
      simp only [updateDependency, coeffOf]
      split_ifs <;> simp
  | cons p rest ih =>
      obtain ⟨w, c⟩ := p
      rw [DepsWF, List.pairwise_cons] at hm
      obtain ⟨hw0, hrest⟩ := hm
      have hw : ∀ q ∈ rest, w.uid < q.1.uid := hw0
      simp only [updateDependency]
      by_cases h1 : v.uid < w.uid
      · rw [if_pos h1]
        by_cases hvi : v.uid = i
        · have hwi : ¬ w.uid = i := by omega
          have hzero : coeffOf rest i = 0 :=
            coeffOf_eq_zero fun q hq => by have := hw q hq; omega
          simp [coeffOf, hvi, hwi, hzero]
        · simp [coeffOf, hvi]
      · rw [if_neg h1]
        by_cases h2 : v.uid = w.uid
        · rw [if_pos h2]
          by_cases hwi : w.uid = i
          · have hvi : v.uid = i := by omega
            simp [coeffOf, hwi, hvi]
          · have hvi : ¬ v.uid = i := by omega
            simp [coeffOf, hwi, hvi]
        · rw [if_neg h2]
          by_cases hwi : w.uid = i
          · have hvi : ¬ v.uid = i := by omega
            simp [coeffOf, hwi, hvi]
          · simp [coeffOf, hwi, ih hrest]

theorem updateDependencies_sorted {deps : DepsMap} :
    ∀ {acc : DepsMap}, DepsWF acc → ∀ (s : ℚ),
      DepsWF (updateDependencies acc deps s) := by
  induction deps with
  | nil => intro acc h s; exact h
  | cons p rest ih =>
      intro acc h s
      simp only [updateDependencies, List.foldl_cons]
      exact ih (updateDependency_sorted h p.1 (p.2 * s)) s

theorem coeffOf_updateDependencies {deps : DepsMap} :
    ∀ {acc : DepsMap}, DepsWF acc → DepsWF deps → ∀ (s : ℚ) (i : Nat),
      coeffOf (updateDependencies acc deps s) i
        = coeffOf acc i + s * coeffOf deps i := by
  induction deps with
  | nil => intro acc _ _ s i; simp [updateDependencies, coeffOf]
  | cons p rest ih =>
      intro acc hacc hdeps s i
      rw [DepsWF, List.pairwise_cons] at hdeps
      obtain ⟨hp, hrest⟩ := hdeps
      simp only [updateDependencies, List.foldl_cons]
      have hacc' := updateDependency_sorted hacc p.1 (p.2 * s)
      have h := ih hacc' hrest s i
      simp only [updateDependencies] at h
      rw [h, coeffOf_updateDependency hacc]
      simp only [coeffOf]
      by_cases hpi : p.1.uid = i
      · have hzero : coeffOf rest i = 0 := by
          refine coeffOf_eq_zero fun q hq => ?_
          have := hp q hq
          omega
        simp [hpi, hzero]; ring
      · simp [hpi]

theorem coeffOf_scaleDeps (m : DepsMap) (k : ℚ) (i : Nat) :
    coeffOf (scaleDeps m k) i = coeffOf m i * k := by
  induction m with
  | nil => simp [scaleDeps, coeffOf]
  | cons p rest ih =>
      simp only [scaleDeps, List.map_cons, coeffOf] at *
      by_cases h : p.1.uid = i
      · simp [h]
      · simp [h, ih]

theorem scaleDeps_sorted {m : DepsMap} (hm : DepsWF m) (k : ℚ) :
    DepsWF (scaleDeps m k) := by
  rw [DepsWF, scaleDeps, List.pairwise_map]
  exact hm

theorem calcVar_nonneg (m : DepsMap) : 0 ≤ calcVar m := by
  rw [calcVar]
  refine List.sum_nonneg fun x hx => ?_
  rw [List.mem_map] at hx
  obtain ⟨p, _, rfl⟩ := hx
  positivity

theorem calcVar_scaleDeps (m : DepsMap) (k : ℚ) :
    calcVar (scaleDeps m k) = k ^ 2 * calcVar m := by
  induction m with
  | nil => simp [scaleDeps, calcVar]
  | cons p rest ih =>
      simp only [scaleDeps, calcVar, List.map_cons, List.sum_cons] at *
      rw [ih]; ring

end Sigma2

namespace Sigma2

theorem updateDependency_cons_of_lt {w : IndVar} {c : ℚ} {m : DepsMap}
    {v : IndVar} {d : ℚ} (h : w.uid < v.uid) :
    updateDependency ((w, c) :: m) v d = (w, c) :: updateDependency m v d := by
  have h1 : ¬ v.uid < w.uid := by omega
  have h2 : ¬ v.uid = w.uid := by omega
  simp [updateDependency, h1, h2]

theorem updateDependencies_cons_out {dm : DepsMap} :
    ∀ {w : IndVar} {c : ℚ} {acc : DepsMap} {s : ℚ},
      (∀ p ∈ dm, w.uid < p.1.uid) →
      updateDependencies ((w, c) :: acc) dm s
        = (w, c) :: updateDependencies acc dm s := by
  induction dm with
  | nil => intro w c acc s _; rfl
  | cons p rest ih =>
      intro w c acc s h
      simp only [updateDependencies, List.foldl_cons]
      rw [updateDependency_cons_of_lt (h p (List.mem_cons_self _ _))]
      exact ih fun q hq => h q (List.mem_cons_of_mem _ hq)

/-- Merging a map into a rescaled copy of itself adds the two scaled
coefficients entrywise, preserving keys and order. -/
theorem updateDependencies_self_scaled {dm : DepsMap} (hdm : DepsWF dm)
    (t s : ℚ) :
    updateDependencies (scaleDeps dm t) dm s
      = dm.map (fun p => (p.1, p.2 * t + p.2 * s)) := by
  induction dm with
  | nil => rfl
  | cons p rest ih =>
      rw [DepsWF, List.pairwise_cons] at hdm
      obtain ⟨hp0, hrest⟩ := hdm
      have hp : ∀ q ∈ rest, p.1.uid < q.1.uid := hp0
      simp only [scaleDeps, List.map_cons, updateDependencies, List.foldl_cons]
      have hstep :
          updateDependency ((p.1, p.2 * t) :: List.map (fun q => (q.1, q.2 * t)) rest)
              p.1 (p.2 * s)
            = (p.1, p.2 * t + p.2 * s) :: List.map (fun q => (q.1, q.2 * t)) rest := by
        simp [updateDependency]
      rw [hstep]
      have hout := @updateDependencies_cons_out rest p.1 (p.2 * t + p.2 * s)
        (List.map (fun q => (q.1, q.2 * t)) rest) s hp
      simp only [updateDependencies] at hout ⊢
      rw [hout]
      have := ih hrest
      simp only [updateDependencies, scaleDeps] at this
      rw [this]

theorem scaleDeps_one (m : DepsMap) : scaleDeps m 1 = m := by
  simp [scaleDeps]

theorem uncertain_eq {a b : Uncertain} (h1 : a.m_mean_ = b.m_mean_)
    (h2 : a.m_std_sq_ = b.m_std_sq_) (h3 : a.m_deps_ = b.m_deps_) :
    a = b := by
  cases a; cases b; simp_all

theorem depsBeq_refl (m : DepsMap) : depsBeq m m = true := by
  induction m with
  | nil => rfl
  | cons p rest ih => simp [depsBeq, ih]

theorem depsBeq_symm (m1 m2 : DepsMap) : depsBeq m1 m2 = depsBeq m2 m1 := by
  induction m1 generalizing m2 with
  | nil => cases m2 <;> rfl
  | cons p rest ih =>
      cases m2 with
      | nil => rfl
      | cons q rest2 =>
          simp only [depsBeq]
          by_cases h : p.1.uid = q.1.uid ∧ p.2 = q.2
          · have h' : q.1.uid = p.1.uid ∧ q.2 = p.2 := ⟨h.1.symm, h.2.symm⟩
            rw [if_pos h, if_pos h', ih]
          · have h' : ¬ (q.1.uid = p.1.uid ∧ q.2 = p.2) := by
              intro hc; exact h ⟨hc.1.symm, hc.2.symm⟩
            rw [if_neg h, if_neg h']

theorem depsBeq_iff (m1 m2 : DepsMap) :
    depsBeq m1 m2 = true
      ↔ m1.map (fun p => (p.1.uid, p.2)) = m2.map (fun p => (p.1.uid, p.2)) := by
  induction m1 generalizing m2 with
  | nil => cases m2 <;> simp [depsBeq]
  | cons p rest ih =>
      cases m2 with
      | nil => simp [depsBeq]
      | cons q rest2 =>
          simp only [depsBeq, List.map_cons, List.cons.injEq]
          by_cases h : p.1.uid = q.1.uid ∧ p.2 = q.2
          · rw [if_pos h, ih]
            simp [h.1, h.2, Prod.ext_iff]
          · rw [if_neg h]
            simp only [Bool.false_eq_true, false_iff, Prod.mk.injEq]
            intro hc
            exact h ⟨hc.1.1, hc.1.2⟩

end Sigma2

-- -- Claim theorems ----------------------------------------------------------

namespace Sigma2

theorem sqrt_ratCast_eq {q : ℚ} {r : ℝ} (hr : 0 ≤ r) (h : r ^ 2 = (q : ℝ)) :
    Real.sqrt (q : ℝ) = r := by
  rw [← h, Real.sqrt_sq hr]

theorem calcVar_eq_sum (m : DepsMap) :
    calcVar m = (m.map (fun p => p.2 ^ 2 * p.1.sd ^ 2)).sum := by
  induction m with
  | nil => rfl
  | cons p rest ih =>
      simp only [calcVar, List.map_cons, List.sum_cons] at *
      rw [ih]
      ring_nf

theorem calcVar_cancel (dm : DepsMap) :
    calcVar (dm.map (fun p => (p.1, p.2 * 1 + p.2 * (-1)))) = 0 := by
  rw [calcVar, List.map_map]
  apply List.sum_eq_zero
  intro x hx
  rw [List.mem_map] at hx
  obtain ⟨p, _, rfl⟩ := hx
  have h0 : p.2 * 1 + p.2 * (-1) = 0 := by ring
  simp [h0]

/-- C1: every `Uncertain` value obtained through the public API — direct
construction, copy, or any arithmetic operator — stores a standard
deviation equal to `sqrt(Σ coeff_i² * independent_std_i²)` over its
dependency map; it is always this recomputation and never an
independently stored value. -/
theorem claim_c1_std_invariant (u : Uncertain) (h : Reachable u) :
    u.m_std_sq_ = calcVar u.m_deps_ ∧
    Real.sqrt (u.m_std_sq_ : ℝ)
      = Real.sqrt (((u.m_deps_.map (fun p => p.2 ^ 2 * p.1.sd ^ 2)).sum : ℚ) : ℝ) := by
  have hv : u.m_std_sq_ = calcVar u.m_deps_ := by
    cases h <;> rfl
  refine ⟨hv, ?_⟩
  rw [hv, calcVar_eq_sum]

theorem claim_c1_std_invariant_witness :
    (Uncertain.mk' 0 1 1).m_std_sq_ = calcVar (Uncertain.mk' 0 1 1).m_deps_ ∧
    Real.sqrt ((Uncertain.mk' 0 1 1).m_std_sq_ : ℝ)
      = Real.sqrt ((((Uncertain.mk' 0 1 1).m_deps_.map
          (fun p => p.2 ^ 2 * p.1.sd ^ 2)).sum : ℚ) : ℝ) :=
  claim_c1_std_invariant (Uncertain.mk' 0 1 1) (Reachable.mk' 0 1 1)

/-- C5: `Uncertain(m, σ)` (for σ a standard deviation, hence ≥ 0) yields
mean `m`, standard deviation `σ`, and a dependency map with exactly one
entry: the fresh synthetic independent variable of standard deviation
`σ`, with sensitivity coefficient `1`. -/
theorem claim_c5_construction (uid : Nat) (m s : ℚ) (hs : 0 ≤ s) :
    (Uncertain.mk' uid m s).mean = m ∧
    Real.sqrt ((Uncertain.mk' uid m s).m_std_sq_ : ℝ) = (s : ℝ) ∧
    (Uncertain.mk' uid m s).m_deps_ = [(⟨uid, s⟩, 1)] := by
  refine ⟨rfl, ?_, rfl⟩
  have hval : (Uncertain.mk' uid m s).m_std_sq_ = s ^ 2 := by
    show calcVar [(⟨uid, s⟩, 1)] = s ^ 2
    simp [calcVar]
  rw [hval]
  push_cast
  exact Real.sqrt_sq (by exact_mod_cast hs)

theorem claim_c5_construction_witness :
    (Uncertain.mk' 0 2 (1/2)).mean = 2 ∧
    Real.sqrt ((Uncertain.mk' 0 2 (1/2)).m_std_sq_ : ℝ) = ((1/2 : ℚ) : ℝ) ∧
    (Uncertain.mk' 0 2 (1/2)).m_deps_ = [(⟨0, 1/2⟩, 1)] :=
  claim_c5_construction 0 2 (1/2) (by norm_num)

/-- C6: for an `Uncertain` `u` whose stored standard deviation satisfies
the recomputation invariant, `u * k` has mean `k * mean(u)`, every
dependency coefficient of `u` scaled by `k`, and standard deviation
`|k| * std(u)` (the dependency-derived recomputation coincides with the
naive scaling formula); scalar multiplication with the scalar on the
left equals the scalar on the right; and `Uncertain(5, 0.5) * 3` has
mean 15 and standard deviation 1.5. -/
theorem claim_c6_scalar_mul (u : Uncertain) (k : ℚ)
    (hu : u.m_std_sq_ = calcVar u.m_deps_) :
    (u.smul k).mean = k * u.mean ∧
    (∀ i, coeffOf (u.smul k).m_deps_ i = coeffOf u.m_deps_ i * k) ∧
    Real.sqrt ((u.smul k).m_std_sq_ : ℝ)
      = |(k : ℝ)| * Real.sqrt (u.m_std_sq_ : ℝ) ∧
    (∀ (c : ℚ) (v : Uncertain), Uncertain.smulLeft c v = v.smul c) ∧
    ((Uncertain.mk' 0 5 (1/2)).smul 3).mean = 15 ∧
    Real.sqrt ((((Uncertain.mk' 0 5 (1/2)).smul 3).m_std_sq_ : ℚ) : ℝ) = 3/2 := by
  refine ⟨rfl, ?_, ?_,
    fun c v => rfl,
    by norm_num [Uncertain.mk', Uncertain.smul, Uncertain.mean], ?_⟩
  · intro i
    show coeffOf (scaleDeps u.m_deps_ k) i = _
    exact coeffOf_scaleDeps u.m_deps_ k i
  · have hval : (u.smul k).m_std_sq_ = k ^ 2 * calcVar u.m_deps_ := by
      show calcVar (scaleDeps u.m_deps_ k) = _
      exact calcVar_scaleDeps u.m_deps_ k
    rw [hval, hu]
    push_cast
    rw [Real.sqrt_mul (by positivity), Real.sqrt_sq_eq_abs]
  · have hval : ((Uncertain.mk' 0 5 (1/2)).smul 3).m_std_sq_ = 9/4 := by
      norm_num [Uncertain.mk', Uncertain.smul, scaleDeps, calcVar]
    rw [hval]
    refine sqrt_ratCast_eq (by norm_num) ?_
    norm_num

theorem claim_c6_scalar_mul_witness :
    ((Uncertain.mk' 7 2 1).smul 4).mean = 4 * (Uncertain.mk' 7 2 1).mean ∧
    (∀ i, coeffOf ((Uncertain.mk' 7 2 1).smul 4).m_deps_ i
        = coeffOf (Uncertain.mk' 7 2 1).m_deps_ i * 4) ∧
    Real.sqrt (((Uncertain.mk' 7 2 1).smul 4).m_std_sq_ : ℝ)
      = |((4 : ℚ) : ℝ)| * Real.sqrt ((Uncertain.mk' 7 2 1).m_std_sq_ : ℝ) ∧
    (∀ (c : ℚ) (v : Uncertain), Uncertain.smulLeft c v = v.smul c) ∧
    ((Uncertain.mk' 0 5 (1/2)).smul 3).mean = 15 ∧
    Real.sqrt ((((Uncertain.mk' 0 5 (1/2)).smul 3).m_std_sq_ : ℚ) : ℝ) = 3/2 :=
  claim_c6_scalar_mul (Uncertain.mk' 7 2 1) 4 rfl

/-- C7: `x.pow(p)` has mean `mean(x)^p` and every dependency coefficient
of `x` scaled by `p * mean(x)^(p-1)`; in particular
`Uncertain(4, 0.2).pow(2)` has mean 16 and standard deviation 1.6. -/
theorem claim_c7_pow (x : Uncertain) (p : ℤ) :
    (x.pow p).mean = x.mean ^ p ∧
    (∀ i, coeffOf (x.pow p).m_deps_ i
        = coeffOf x.m_deps_ i * ((p : ℚ) * x.mean ^ (p - 1))) ∧
    ((Uncertain.mk' 0 4 (1/5)).pow 2).mean = 16 ∧
    Real.sqrt ((((Uncertain.mk' 0 4 (1/5)).pow 2).m_std_sq_ : ℚ) : ℝ) = 8/5 := by
  refine ⟨rfl, ?_,
    by norm_num [Uncertain.mk', Uncertain.pow, Uncertain.mean], ?_⟩
  · intro i
    show coeffOf (scaleDeps x.m_deps_ _) i = _
    exact coeffOf_scaleDeps x.m_deps_ _ i
  · have hval : ((Uncertain.mk' 0 4 (1/5)).pow 2).m_std_sq_ = 64/25 := by
      norm_num [Uncertain.mk', Uncertain.pow, scaleDeps, calcVar]
    rw [hval]
    refine sqrt_ratCast_eq (by norm_num) ?_
    norm_num

end Sigma2

namespace Sigma2

/-- C2: `x * y` has mean `mean(x)*mean(y)`; its dependency map is `x`'s
map scaled by `mean(y)` merged with `y`'s map scaled by the original
`mean(x)`, coefficients summing where an independent variable occurs in
both (expressed per identity via `coeffOf`); and for
`x = Uncertain(2, 0.1)`, `y = Uncertain(3, 0.2)`, `x*y` has mean 6 and
standard deviation 0.5. -/
theorem claim_c2_mul (x y : Uncertain)
    (hx : DepsWF x.m_deps_) (hy : DepsWF y.m_deps_) :
    ((x.mul y).mean = x.mean * y.mean ∧
      ∀ i, coeffOf (x.mul y).m_deps_ i
        = y.mean * coeffOf x.m_deps_ i + x.mean * coeffOf y.m_deps_ i) ∧
    ((Uncertain.mk' 0 2 (1/10)).mul (Uncertain.mk' 1 3 (1/5))).mean = 6 ∧
    Real.sqrt ((((Uncertain.mk' 0 2 (1/10)).mul
        (Uncertain.mk' 1 3 (1/5))).m_std_sq_ : ℚ) : ℝ) = 1/2 := by
  refine ⟨⟨rfl, ?_⟩,
    by norm_num [Uncertain.mk', Uncertain.mul, Uncertain.mean], ?_⟩
  · intro i
    show coeffOf
        (updateDependencies (scaleDeps x.m_deps_ y.m_mean_) y.m_deps_ x.m_mean_) i
      = _
    rw [coeffOf_updateDependencies (scaleDeps_sorted hx y.m_mean_) hy,
      coeffOf_scaleDeps]
    simp only [Uncertain.mean]
    ring
  · have hval : ((Uncertain.mk' 0 2 (1/10)).mul
        (Uncertain.mk' 1 3 (1/5))).m_std_sq_ = 1/4 := by
      norm_num [Uncertain.mk', Uncertain.mul, scaleDeps, calcVar,
        updateDependencies, updateDependency]
    rw [hval]
    exact sqrt_ratCast_eq (by norm_num) (by norm_num)

theorem claim_c2_mul_witness :
    DepsWF (Uncertain.mk' 0 2 (1/10)).m_deps_ ∧
    DepsWF (Uncertain.mk' 1 3 (1/5)).m_deps_ ∧
    ((Uncertain.mk' 0 2 (1/10)).mul (Uncertain.mk' 1 3 (1/5))).mean
      = (Uncertain.mk' 0 2 (1/10)).mean * (Uncertain.mk' 1 3 (1/5)).mean ∧
    ((Uncertain.mk' 0 2 (1/10)).mul (Uncertain.mk' 1 3 (1/5))).mean = 6 ∧
    Real.sqrt ((((Uncertain.mk' 0 2 (1/10)).mul
        (Uncertain.mk' 1 3 (1/5))).m_std_sq_ : ℚ) : ℝ) = 1/2 := by
  have h := claim_c2_mul (Uncertain.mk' 0 2 (1/10)) (Uncertain.mk' 1 3 (1/5))
    (by decide) (by decide)
  exact ⟨by decide, by decide, h.1.1, h.2.1, h.2.2⟩

/-- C3: `x / y` has mean `mean(x)/mean(y)`; its dependency map is `x`'s
map scaled by `1/mean(y)` merged with `y`'s map scaled by
`-mean(x)/mean(y)²` (expressed per identity via `coeffOf`); and for
`x = Uncertain(10, 1)`, `y = Uncertain(2, 0.1)`, `x/y` has mean 5 and
standard deviation `sqrt(0.25 + 0.0625)`. -/
theorem claim_c3_div (x y : Uncertain)
    (hx : DepsWF x.m_deps_) (hy : DepsWF y.m_deps_) :
    ((x.div y).mean = x.mean / y.mean ∧
      ∀ i, coeffOf (x.div y).m_deps_ i
        = (1 / y.mean) * coeffOf x.m_deps_ i
          + (-x.mean / y.mean ^ 2) * coeffOf y.m_deps_ i) ∧
    ((Uncertain.mk' 0 10 1).div (Uncertain.mk' 1 2 (1/10))).mean = 5 ∧
    Real.sqrt ((((Uncertain.mk' 0 10 1).div
        (Uncertain.mk' 1 2 (1/10))).m_std_sq_ : ℚ) : ℝ)
      = Real.sqrt ((1/4 : ℝ) + 1/16) := by
  refine ⟨⟨rfl, ?_⟩,
    by norm_num [Uncertain.mk', Uncertain.div, Uncertain.mean], ?_⟩
  · intro i
    show coeffOf (updateDependencies (scaleDeps x.m_deps_ (1 / y.m_mean_))
        y.m_deps_ (-x.m_mean_ / y.m_mean_ ^ 2)) i = _
    rw [coeffOf_updateDependencies (scaleDeps_sorted hx (1 / y.m_mean_)) hy,
      coeffOf_scaleDeps]
    simp only [Uncertain.mean]
    ring
  · have hval : ((Uncertain.mk' 0 10 1).div
        (Uncertain.mk' 1 2 (1/10))).m_std_sq_ = 5/16 := by
      norm_num [Uncertain.mk', Uncertain.div, scaleDeps, calcVar,
        updateDependencies, updateDependency]
    rw [hval]
    have hc : (((5:ℚ)/16 : ℚ) : ℝ) = (1/4 : ℝ) + 1/16 := by norm_num
    rw [hc]

theorem claim_c3_div_witness :
    DepsWF (Uncertain.mk' 0 10 1).m_deps_ ∧
    DepsWF (Uncertain.mk' 1 2 (1/10)).m_deps_ ∧
    ((Uncertain.mk' 0 10 1).div (Uncertain.mk' 1 2 (1/10))).mean
      = (Uncertain.mk' 0 10 1).mean / (Uncertain.mk' 1 2 (1/10)).mean ∧
    ((Uncertain.mk' 0 10 1).div (Uncertain.mk' 1 2 (1/10))).mean = 5 ∧
    Real.sqrt ((((Uncertain.mk' 0 10 1).div
        (Uncertain.mk' 1 2 (1/10))).m_std_sq_ : ℚ) : ℝ)
      = Real.sqrt ((1/4 : ℝ) + 1/16) := by
  have h := claim_c3_div (Uncertain.mk' 0 10 1) (Uncertain.mk' 1 2 (1/10))
    (by decide) (by decide)
  exact ⟨by decide, by decide, h.1.1, h.2.1, h.2.2⟩

end Sigma2

namespace Sigma2

theorem sub_self_deps {dm : DepsMap} (h : DepsWF dm) :
    updateDependencies dm dm (-1)
      = dm.map (fun p => (p.1, p.2 * 1 + p.2 * (-1))) := by
  have hs := updateDependencies_self_scaled h 1 (-1)
  rwa [scaleDeps_one] at hs

/-- C4 counterexample to the claim as stated: two values independently
constructed from the same `(mean, σ)` with `σ = 0` have a difference
whose standard deviation is *not* strictly greater than 0. -/
theorem claim_c4_counterexample :
    ¬ (0 < Real.sqrt
        (((Uncertain.mk' 0 0 0).sub (Uncertain.mk' 1 0 0)).m_std_sq_ : ℝ)) := by
  have hval : ((Uncertain.mk' 0 0 0).sub (Uncertain.mk' 1 0 0)).m_std_sq_ = 0 := by
    norm_num [Uncertain.mk', Uncertain.sub, updateDependencies,
      updateDependency, calcVar]
  rw [hval]
  simp

/-- C4 (amended): `x - x` (same value, shared dependency identities) has
mean 0 and standard deviation 0; two values independently constructed
from the same `(m, σ)` but with distinct synthetic independent variables
have a difference with standard deviation `sqrt(2)*σ`, which is strictly
positive whenever `σ > 0` (at `σ = 0` it equals `sqrt(2)*σ = 0`). -/
theorem claim_c4_sub_correlation (x : Uncertain) (hx : DepsWF x.m_deps_)
    (id1 id2 : Nat) (m s : ℚ) (hid : id1 ≠ id2) (hs : 0 ≤ s) :
    ((x.sub x).mean = 0 ∧ Real.sqrt ((x.sub x).m_std_sq_ : ℝ) = 0) ∧
    (Real.sqrt (((Uncertain.mk' id1 m s).sub
          (Uncertain.mk' id2 m s)).m_std_sq_ : ℝ)
        = Real.sqrt 2 * (s : ℝ) ∧
      (0 < s →
        0 < Real.sqrt (((Uncertain.mk' id1 m s).sub
            (Uncertain.mk' id2 m s)).m_std_sq_ : ℝ))) := by
  have hval : ((Uncertain.mk' id1 m s).sub
      (Uncertain.mk' id2 m s)).m_std_sq_ = 2 * s ^ 2 := by
    show calcVar (updateDependencies [(⟨id1, s⟩, 1)] [(⟨id2, s⟩, 1)] (-1))
        = 2 * s ^ 2
    simp only [updateDependencies, List.foldl_cons, List.foldl_nil]
    by_cases hlt : id2 < id1
    · rw [updateDependency, if_pos hlt]
      simp [calcVar]
      ring
    · have hgt : id1 < id2 := by omega
      rw [updateDependency,
        if_neg (show ¬ (id2 < id1) by omega),
        if_neg (show ¬ (id2 = id1) by omega)]
      simp [updateDependency, calcVar]
      ring
  have hsqrt : Real.sqrt ((((2 : ℚ) * s ^ 2 : ℚ) : ℝ))
      = Real.sqrt 2 * (s : ℝ) := by
    push_cast
    rw [Real.sqrt_mul (by norm_num : (0:ℝ) ≤ 2),
      Real.sqrt_sq (by exact_mod_cast hs)]
  refine ⟨⟨?_, ?_⟩, ?_, ?_⟩
  · show x.m_mean_ - x.m_mean_ = 0
    simp
  · have hdeps : (x.sub x).m_std_sq_ = 0 := by
      show calcVar (updateDependencies x.m_deps_ x.m_deps_ (-1)) = 0
      rw [sub_self_deps hx, calcVar_cancel]
    rw [hdeps]
    simp
  · rw [hval, hsqrt]
  · intro hs'
    rw [hval, hsqrt]
    have h2 : (0:ℝ) < Real.sqrt 2 := Real.sqrt_pos.mpr (by norm_num)
    have hsr : (0:ℝ) < (s : ℝ) := by exact_mod_cast hs'
    exact mul_pos h2 hsr

theorem claim_c4_sub_correlation_witness :
    DepsWF (Uncertain.mk' 0 3 1).m_deps_ ∧ (0 : Nat) ≠ 1 ∧ (0:ℚ) ≤ 1 ∧
    ((((Uncertain.mk' 0 3 1).sub (Uncertain.mk' 0 3 1)).mean = 0 ∧
      Real.sqrt (((Uncertain.mk' 0 3 1).sub
          (Uncertain.mk' 0 3 1)).m_std_sq_ : ℝ) = 0) ∧
    (Real.sqrt (((Uncertain.mk' 0 3 1).sub
          (Uncertain.mk' 1 3 1)).m_std_sq_ : ℝ)
        = Real.sqrt 2 * ((1:ℚ) : ℝ) ∧
      ((0:ℚ) < 1 →
        0 < Real.sqrt (((Uncertain.mk' 0 3 1).sub
            (Uncertain.mk' 1 3 1)).m_std_sq_ : ℝ)))) :=
  ⟨by decide, by decide, by norm_num,
    claim_c4_sub_correlation (Uncertain.mk' 0 3 1) (by decide)
      0 1 3 1 (by decide) (by norm_num)⟩

/-- C8: the equality operator is structural on (mean, stored standard
deviation, dependency map) with exact comparison: it is reflexive,
symmetric, holds exactly when the means agree, the stored standard
deviations agree (equivalently, for non-negative radicands, the standard
deviations agree), and the maps hold the same identities with exactly
equal coefficients; `operator!=` is its exact negation. -/
theorem claim_c8_equality :
    (∀ a : Uncertain, eqU a a = true) ∧
    (∀ a b : Uncertain, eqU a b = eqU b a) ∧
    (∀ a b : Uncertain, eqU a b = true ↔
      (a.m_mean_ = b.m_mean_ ∧ a.m_std_sq_ = b.m_std_sq_ ∧
        a.m_deps_.map (fun p => (p.1.uid, p.2))
          = b.m_deps_.map (fun p => (p.1.uid, p.2)))) ∧
    (∀ a b : Uncertain, 0 ≤ a.m_std_sq_ → 0 ≤ b.m_std_sq_ →
      (a.m_std_sq_ = b.m_std_sq_ ↔
        Real.sqrt (a.m_std_sq_ : ℝ) = Real.sqrt (b.m_std_sq_ : ℝ))) ∧
    (∀ a b : Uncertain, neU a b = ! eqU a b) := by
  refine ⟨?_, ?_, ?_, ?_, fun a b => rfl⟩
  · intro a
    simp [eqU, depsBeq_refl]
  · intro a b
    unfold eqU
    by_cases h1 : a.m_mean_ = b.m_mean_
    · rw [if_pos h1, if_pos h1.symm]
      by_cases h2 : a.m_std_sq_ = b.m_std_sq_
      · rw [if_pos h2, if_pos h2.symm, depsBeq_symm]
      · rw [if_neg h2, if_neg (fun h => h2 h.symm)]
    · rw [if_neg h1, if_neg (fun h => h1 h.symm)]
  · intro a b
    unfold eqU
    by_cases h1 : a.m_mean_ = b.m_mean_
    · rw [if_pos h1]
      by_cases h2 : a.m_std_sq_ = b.m_std_sq_
      · rw [if_pos h2, depsBeq_iff]
        simp [h1, h2]
      · rw [if_neg h2]
        simp [h2]
    · rw [if_neg h1]
      simp [h1]
  · intro a b ha hb
    constructor
    · intro h
      rw [h]
    · intro h
      have ha' : (0:ℝ) ≤ (a.m_std_sq_ : ℝ) := by exact_mod_cast ha
      have hb' : (0:ℝ) ≤ (b.m_std_sq_ : ℝ) := by exact_mod_cast hb
      have hsq := congrArg (fun t : ℝ => t ^ 2) h
      simp only at hsq
      rw [Real.sq_sqrt ha', Real.sq_sqrt hb'] at hsq
      exact_mod_cast hsq

theorem claim_c8_equality_witness :
    eqU (Uncertain.mk' 0 1 1) (Uncertain.mk' 0 1 1) = true ∧
    (0:ℚ) ≤ (Uncertain.mk' 0 1 1).m_std_sq_ ∧
    (0:ℚ) ≤ (Uncertain.mk' 1 2 2).m_std_sq_ ∧
    ((Uncertain.mk' 0 1 1).m_std_sq_ = (Uncertain.mk' 1 2 2).m_std_sq_ ↔
      Real.sqrt ((Uncertain.mk' 0 1 1).m_std_sq_ : ℝ)
        = Real.sqrt ((Uncertain.mk' 1 2 2).m_std_sq_ : ℝ)) := by
  refine ⟨claim_c8_equality.1 (Uncertain.mk' 0 1 1),
    by norm_num [Uncertain.mk', calcVar],
    by norm_num [Uncertain.mk', calcVar], ?_⟩
  exact claim_c8_equality.2.2.2.1 (Uncertain.mk' 0 1 1) (Uncertain.mk' 1 2 2)
    (by norm_num [Uncertain.mk', calcVar])
    (by norm_num [Uncertain.mk', calcVar])

/-- C10: multiplying a value by itself with the binary product equals
`pow 2` exactly — same mean, same stored standard deviation, and the
same dependency map — because the product rule's self-correlation merge
yields coefficient `2*mean(x)*c` per entry, matching the chain-rule
scale `2*mean(x)^1`. -/
theorem claim_c10_mul_self (x : Uncertain) (hx : DepsWF x.m_deps_) :
    x.mul x = x.pow 2 := by
  have hdeps : (x.mul x).m_deps_ = (x.pow 2).m_deps_ := by
    show updateDependencies (scaleDeps x.m_deps_ x.m_mean_) x.m_deps_ x.m_mean_
        = scaleDeps x.m_deps_ (((2:ℤ) : ℚ) * x.m_mean_ ^ ((2:ℤ) - 1))
    rw [updateDependencies_self_scaled hx]
    unfold scaleDeps
    refine List.map_congr_left fun p _ => ?_
    have h1 : ((2:ℤ) - 1) = 1 := by decide
    rw [h1, zpow_one]
    simp only [Prod.mk.injEq, true_and]
    push_cast
    ring
  have hmean : (x.mul x).m_mean_ = (x.pow 2).m_mean_ := by
    show x.m_mean_ * x.m_mean_ = x.m_mean_ ^ (2:ℤ)
    rw [zpow_two]
  have hstd : (x.mul x).m_std_sq_ = (x.pow 2).m_std_sq_ := by
    show calcVar (x.mul x).m_deps_ = calcVar (x.pow 2).m_deps_
    rw [hdeps]
  exact uncertain_eq hmean hstd hdeps

theorem claim_c10_mul_self_witness :
    DepsWF (Uncertain.mk' 0 3 1).m_deps_ ∧
    (Uncertain.mk' 0 3 1).mul (Uncertain.mk' 0 3 1)
      = (Uncertain.mk' 0 3 1).pow 2 :=
  ⟨by decide, claim_c10_mul_self (Uncertain.mk' 0 3 1) (by decide)⟩

end Sigma2
